import Mathlib

/-!
# Verification of the finboard schema-less data pipeline

A shallow embedding, in Lean 4, of the core data operations of the finboard
dashboard: dot-path resolution (`getFieldValue`), recursive field discovery
(`extractFields`), the chart and card data adapters (`processChartData`,
`processCardData`), the widget collection store (`addWidget`), the widget
fetch lifecycle (`useWidgetData`'s effect and `refetch`), and the HTTP
status-to-error mapping of each widget fetch path.

JavaScript values flowing through the pipeline are JSON documents; they are
embedded as the recursive type `Json` below.  JavaScript numbers are embedded
as rationals (`Rat`); every numeric literal appearing in the repository and in
the theorems below is exactly representable, so no floating-point rounding is
modelled.  Property access `v[k]` is embedded by `jsIndex`, covering every
**own data property**: an object's entries, an array's element slots and its
`length`, a string's character positions and its `length`.  Reads that would
hit only the prototype chain (e.g. `toString`) return host function objects,
which lie outside the JSON value space and are not modelled; no theorem below
concludes that the program yields NotFound on such a read.  JavaScript
`undefined` is `Option.none` at result positions.
-/

namespace FinBoard

/-- A JSON document: the type of every payload the pipeline manipulates. -/
inductive Json where
  | null
  | bool (b : Bool)
  | num (q : Rat)
  | str (s : String)
  | arr (elems : List Json)
  | obj (entries : List (String × Json))
deriving Repr, BEq, Inhabited

/-- JavaScript truthiness of an embedded JSON value: `null`, `false`, `0` and
`""` are falsy; every array and object (even empty) is truthy.  (`NaN`, the
other falsy value, has no `Json` embedding.) -/
def truthy : Json → Bool
  | .null => false
  | .bool b => b
  | .num q => !(q == 0)
  | .str s => !(s == "")
  | .arr _ => true
  | .obj _ => true

/-- Own-property lookup on an object's entry list (first match; real
JavaScript objects never carry duplicate keys). -/
def objLookup : List (String × Json) → String → Option Json
  | [], _ => none
  | (k', v) :: rest, k => if k' = k then some v else objLookup rest k

/-- Does the entry list carry the key? -/
def hasKey (es : List (String × Json)) (k : String) : Bool :=
  es.any (fun e => e.1 = k)

/-- Decimal value of a digit list (most significant first). -/
def natOfDigits (ds : List Char) : Nat :=
  ds.foldl (fun a c => a * 10 + (c.toNat - '0'.toNat)) 0

/-- A canonical JavaScript array index: a non-empty all-digit string without a
leading zero (except `"0"` itself).  These are exactly the strings `k` for
which `arr[k]` in JavaScript reads an element slot.  (The 2^32 - 2 upper bound
on array indices is not modelled; no claim involves arrays that long.) -/
def canonIndex (s : String) : Option Nat :=
  match s.data with
  | [] => none
  | ['0'] => some 0
  | c :: cs =>
    if c ≠ '0' ∧ (c :: cs).all Char.isDigit then some (natOfDigits (c :: cs)) else none

/-- Embedded JavaScript property access `v[k]` on own data properties:
objects index by key; arrays by canonical numeric index or their `length`;
strings by canonical numeric index (yielding a one-character string, as in
JavaScript) or their `length`; every other own access is `undefined`.
Prototype-inherited reads (e.g. `toString`), whose results are host function
objects outside the JSON value space, are not modelled. -/
def jsIndex : Json → String → Option Json
  | .obj es, k => objLookup es k
  | .arr xs, k =>
    if k = "length" then some (Json.num xs.length)
    else (canonIndex k).bind (fun n => xs[n]?)
  | .str s, k =>
    if k = "length" then some (Json.num s.length)
    else (canonIndex k).bind (fun n => (s.data[n]?).map (fun c => Json.str (String.mk [c])))
  | _, _ => none

/-! ## Dot-splitting of paths

`String.prototype.split('.')` is embedded at the character-list level so that
its equations are directly usable in proofs: the groups are the maximal
dot-free runs, and splitting the empty string yields `[""]`, exactly as in
JavaScript. -/

/-- Split a character list at every `'.'` (the separator is dropped; empty
groups are kept, so the result is never empty). -/
def splitChars : List Char → List (List Char)
  | [] => [[]]
  | c :: cs =>
    if c = '.' then [] :: splitChars cs
    else
      match splitChars cs with
      | g :: gs => (c :: g) :: gs
      | [] => [[c]]

/-- Embedded `path.split('.')`. -/
def splitDot (s : String) : List String :=
  (splitChars s.data).map String.mk

/-- Rejoin the groups produced by `splitChars`, reinserting the dots. -/
def joinChars : List (List Char) → List Char
  | [] => []
  | [g] => g
  | g :: gs => g ++ '.' :: joinChars gs

/-- Match a leading `data.` envelope marker, returning the remainder. -/
def dataPat : List Char → Option (List Char)
  | 'd' :: 'a' :: 't' :: 'a' :: '.' :: rest => some rest
  | _ => none

/-- Embedded `path.replace(/^data\./, '')`: strip one leading `data.`
envelope segment if present. -/
def stripDataEnvelope (p : String) : String :=
  match dataPat p.data with
  | some rest => String.mk rest
  | none => p

/-- The prefix-extension step of discovery: `prefix ? prefix + '.' + key : key`. -/
def mkPre (pre k : String) : String :=
  if pre = "" then k else pre ++ "." ++ k

/-- The segment sequence a discovery prefix string stands for: the empty
prefix stands for no segments at all (it is the seed `''`, not a segment). -/
def baseSegs (pre : String) : List String :=
  if pre = "" then [] else splitDot pre

/-! ## Path resolution (`getFieldValue`, src/unnamed/part_001 lines 11-25) -/

/-- One step of the traversal reducer
`(acc, part) => (acc && acc[part] !== undefined) ? acc[part] : undefined`:
a falsy or `undefined` accumulator short-circuits to `undefined` without any
property access; otherwise the step is a property access. -/
def reduceStep (acc : Option Json) (part : String) : Option Json :=
  match acc with
  | none => none
  | some v => if truthy v then jsIndex v part else none

/-- The fallback traversal: fold `reduceStep` over the path's segments,
starting from the root. -/
def walk (root : Json) (segs : List String) : Option Json :=
  segs.foldl reduceStep (some root)

/-- Embedded `getFieldValue(obj, path)`: `undefined` on falsy root or empty
path; strip a `data.` envelope; try the whole remaining path as one literal
key; otherwise traverse segment by segment. -/
def getFieldValue (obj : Json) (path : String) : Option Json :=
  if truthy obj = false ∨ path = "" then none
  else
    let cleanPath := stripDataEnvelope path
    match jsIndex obj cleanPath with
    | some v => some v
    | none => walk obj (splitDot cleanPath)

/-! ### Exception-tracking model of the resolver

To state that `getFieldValue` never raises, the same code is embedded once
more with JavaScript's exceptional property reads made explicit: reading a
property of `undefined` or `null` throws a `TypeError`, every other read is
`jsIndex`.  The totality theorem proves the guards of the source rule the
`error` branch out. -/

/-- A property read with JavaScript's exception behavior. -/
def jsAccess (v : Option Json) (k : String) : Except String (Option Json) :=
  match v with
  | none => .error "TypeError: cannot read properties of undefined"
  | some .null => .error "TypeError: cannot read properties of null"
  | some w => .ok (jsIndex w k)

/-- `reduceStep` with exceptional reads explicit: the `acc &&` guard
short-circuits falsy accumulators before any read happens. -/
def stepE (acc : Except String (Option Json)) (part : String) : Except String (Option Json) :=
  match acc with
  | .error e => .error e
  | .ok none => .ok none
  | .ok (some v) => if truthy v then jsAccess (some v) part else .ok none

/-- `getFieldValue` with exceptional reads explicit. -/
def getFieldValueE (obj : Json) (path : String) : Except String (Option Json) :=
  if truthy obj = false ∨ path = "" then .ok none
  else
    let cleanPath := stripDataEnvelope path
    match jsAccess (some obj) cleanPath with
    | .error e => .error e
    | .ok (some v) => .ok (some v)
    | .ok none => (splitDot cleanPath).foldl stepE (.ok (some obj))

/-! ## Field discovery (`extractFields`, src/unnamed/part_001 lines 35-75)

The JavaScript iterates `Object.entries(obj)` inside the mapping branch; that
per-entry loop is split out as `extractEntries` so the two functions can be
reasoned about by structural recursion.  Insertion order of object entries is
the list order.  The `depth > maxDepth` guard is kept as in the source even
though the embedding terminates structurally. -/

mutual

/-- Embedded `extractFields(obj, prefix, depth, maxDepth)`. -/
def extractFields (j : Json) (pre : String) (depth maxDepth : Nat) : List String :=
  if depth > maxDepth then []
  else
    match j with
    | .null => []
    | .arr elems =>
      match elems with
      | [] => [pre]
      | first :: _ =>
        match first with
        | .obj ms => extractFields (.obj ms) pre (depth + 1) maxDepth
        | _ => [pre]
    | .obj entries => extractEntries entries pre depth maxDepth
    | _ => []

/-- The `for (const [key, value] of Object.entries(obj))` loop body of
`extractFields`: an array value contributes its own path and, when its first
element is an object (or `null`, which recursion maps to nothing), the fields
of that first element; an object value contributes only its recursively
discovered sub-paths; any other value contributes its own path. -/
def extractEntries (es : List (String × Json)) (pre : String) (depth maxDepth : Nat) :
    List String :=
  match es with
  | [] => []
  | (k, v) :: rest =>
    (let newPre := mkPre pre k
     match v with
     | .arr velems =>
       newPre ::
         (match velems with
          | .obj ms :: _ => extractFields (.obj ms) newPre (depth + 1) maxDepth
          | .null :: _ => extractFields .null newPre (depth + 1) maxDepth
          | _ => [])
     | .obj ms => extractFields (.obj ms) newPre (depth + 1) maxDepth
     | _ => [newPre]) ++ extractEntries rest pre depth maxDepth

end

/-! ## Structural predicates on documents

These carve out the classes of documents on which discovery and resolution
interact cleanly; the counterexamples below show each restriction is needed. -/

/-- A key that survives the dot round-trip: non-empty and dot-free. -/
def dotFree (k : String) : Bool :=
  !(k == "") && k.data.all (fun c => c ≠ '.')

mutual

/-- Every object in the tree has pairwise-distinct, non-empty, dot-free keys
(distinctness always holds for real parsed JSON objects). -/
def goodKeys : Json → Bool
  | .obj es => goodKeysEntries es
  | .arr elems =>
    match elems with
    | .obj ms :: _ => goodKeysEntries ms
    | _ => true
  | _ => true

/-- Entry-list form of `goodKeys`. -/
def goodKeysEntries : List (String × Json) → Bool
  | [] => true
  | (k, v) :: rest => dotFree k && !(hasKey rest k) && goodKeys v && goodKeysEntries rest

end

mutual

/-- No array reachable by discovery has an object as first element, so
discovery never descends into array elements (such descent produces paths the
resolver cannot follow, see the round-trip counterexample). -/
def noDescent : Json → Bool
  | .obj es => noDescentEntries es
  | .arr elems =>
    match elems with
    | .obj _ :: _ => false
    | _ => true
  | _ => true

/-- Entry-list form of `noDescent`. -/
def noDescentEntries : List (String × Json) → Bool
  | [] => true
  | (_, v) :: rest => noDescent v && noDescentEntries rest

end

/-- The class of roots on which the discover-then-resolve round-trip is
proved below: an object with well-behaved keys throughout, no array-element
descent, and no top-level `data` key (whose discovered sub-paths would be
mangled by the resolver's `data.` envelope stripping). -/
def goodRoot : Json → Bool
  | .obj es => goodKeysEntries es && noDescentEntries es && es.all (fun e => e.1 ≠ "data")
  | _ => false

/-! ## Chart adapter (`processChartData`, src/unnamed/part_001 lines 86-156)

The thrown `Error`s of the JavaScript are embedded as `Except.error`; the
`TypeError` raised by reading a property of `null` is embedded the same way. -/

/-- Embedded `parseFloat`: a number parses to itself; a string parses as an
optionally signed decimal literal (exponents, `Infinity` and the
string-coercion of non-string arguments are not modelled — no claim feeds
them to `parseFloat`); everything else is the not-a-number sentinel,
embedded as `none`. -/
def parseFloatJs : Json → Option Rat
  | .num q => some q
  | .str s =>
    let cs := s.data.dropWhile (fun c => c = ' ')
    let (neg, cs1) :=
      match cs with
      | '-' :: r => (true, r)
      | '+' :: r => (false, r)
      | _ => (false, cs)
    let (ip, cs2) := cs1.span Char.isDigit
    let fp :=
      match cs2 with
      | '.' :: r => (r.span Char.isDigit).1
      | _ => []
    if ip.isEmpty && fp.isEmpty then none
    else
      let mag : Rat := (natOfDigits ip : Rat) + (natOfDigits fp : Rat) / ((10 : Rat) ^ fp.length)
      some (if neg then -mag else mag)
  | _ => none

/-- The message of the error thrown when chart data cannot be located. -/
def chartNotFoundMsg : String := "Could not find chart data. Check field selection."

/-- The embedded `TypeError` message for a property read on `null`. -/
def nullReadMsg : String := "TypeError: cannot read properties of null"

/-- The dataset-wrapper unwrap step: when the resolved value is a non-empty
array whose first element is an object carrying an array-valued `values` (or
else `data`) property, replace the target by that inner array. -/
def unwrapFirst (m : List (String × Json)) (orig : Json) : Json :=
  match objLookup m "values" with
  | some (.arr vs) => .arr vs
  | _ =>
    match objLookup m "data" with
    | some (.arr ds) => .arr ds
    | _ => orig

/-- Embedded `item[i]` for the pair-format branch (`item[0]`, `item[1]`):
reading a property of `null` throws. -/
def pairRead (item : Json) (i : Nat) : Except String (Option Json) :=
  match item with
  | .null => .error nullReadMsg
  | v => .ok (jsIndex v (toString i))

/-- The label/point extraction: pair format when the first element is an
array, otherwise a flat numeric series with synthesized `Pt i` labels. -/
def chartSeries (elems : List Json) : Except String (List (Option Json) × List (Option Rat)) :=
  match elems with
  | .arr _ :: _ => do
    let labels ← elems.mapM (fun it => pairRead it 0)
    let seconds ← elems.mapM (fun it => pairRead it 1)
    pure (labels, seconds.map (fun r => r.bind parseFloatJs))
  | _ =>
    pure (elems.mapIdx (fun i _ => some (Json.str ("Pt " ++ toString (i + 1)))),
      elems.map parseFloatJs)

/-- The chart shape handed to the rendering layer (the gradient / styling
fields of the dataset object carry no data and are not modelled). -/
structure ChartOutput where
  labels : List (Option Json)
  points : List (Option Rat)
  datasetLabel : String
deriving Repr

/-- Embedded `processChartData(rawData, fields, title)`: resolve `fields[0]`,
unwrap a dataset wrapper, require an array, extract labels/points, truncate
to the last 50 pairs when longer (`slice(-50)`), and attach
`label: title || 'Price'`. -/
def processChartData (rawData : Json) (fields : List String) (title : String) :
    Except String ChartOutput :=
  let targetPath := fields.headD ""
  let t0 := getFieldValue rawData targetPath
  let step1 : Except String (Option Json) :=
    match t0 with
    | some (.arr (first :: rest)) =>
      match first with
      | .null => .error nullReadMsg
      | .obj m => .ok (some (unwrapFirst m (.arr (first :: rest))))
      | _ => .ok t0
    | _ => .ok t0
  match step1 with
  | .error e => .error e
  | .ok (some (.arr elems)) =>
    match chartSeries elems with
    | .error e => .error e
    | .ok (labels, pts) =>
      if labels.length > 50 then
        .ok ⟨labels.drop (labels.length - 50), pts.drop (pts.length - 50),
          if title = "" then "Price" else title⟩
      else .ok ⟨labels, pts, if title = "" then "Price" else title⟩
  | .ok _ => .error chartNotFoundMsg

/-! ## Card adapter (`processCardData`, src/unnamed/part_001 lines 193-203) -/

/-- JavaScript property assignment `o[k] = v` on a plain object: overwrite in
place if the key exists, else append (insertion order preserved); assigning
`undefined` still creates the property. -/
def setProp (m : List (String × Option Json)) (k : String) (v : Option Json) :
    List (String × Option Json) :=
  if m.any (fun e => e.1 = k) then m.map (fun e => if e.1 = k then (k, v) else e)
  else m ++ [(k, v)]

/-- The display name of a field path: its final dot-segment
(`fieldPath.split('.').pop()`). -/
def lastSeg (p : String) : String :=
  (splitDot p).getLastD ""

/-- Embedded `processCardData(rawData, selectedFields)`: the resulting card
object as an insertion-ordered property list. -/
def processCardData (rawData : Json) (selectedFields : List String) :
    List (String × Option Json) :=
  selectedFields.foldl
    (fun acc fieldPath => setProp acc (lastSeg fieldPath) (getFieldValue rawData fieldPath))
    []

/-- JavaScript property read `o[k]` on the card object built by
`processCardData` (`none` = the property is absent, `some none` = the
property is present with value `undefined`). -/
def getProp : List (String × Option Json) → String → Option (Option Json)
  | [], _ => none
  | (k', v) :: rest, k => if k' = k then some v else getProp rest k

/-! ## Widget collection store (`addWidget`, src/store/dashboardStore.js lines 14-18)

`Date.now()` is ambient state in the JavaScript; the embedding passes the
clock reading explicitly. -/

/-- A stored widget: its identity and its (otherwise opaque) configuration. -/
structure Widget where
  id : String
  wtype : String
  title : String
deriving Repr, DecidableEq

/-- A widget configuration before an id is assigned. -/
structure WidgetSpec where
  wtype : String
  title : String
deriving Repr, DecidableEq

/-- Embedded `addWidget(newWidget)`: append a copy of the configuration with
`id: Date.now().toString()` (`now` is the clock reading in milliseconds). -/
def addWidget (widgets : List Widget) (cfg : WidgetSpec) (now : Nat) : List Widget :=
  widgets ++ [⟨toString now, cfg.wtype, cfg.title⟩]

/-! ## Fetch lifecycle (`useWidgetData`, src/lib/useWidgetData.js)

The hook's observable state, its mount/reconfiguration effect (lines 103-132)
and its `refetch` (lines 137-140) are embedded as explicit state transitions.
Each transition also reports how many network requests it issues, so that
"zero network calls" claims are statable.  `processData` is the caller's
processing function; a `processData` that throws is embedded as
`Except.error`.  Wall-clock `lastUpdated` strings and the `AbortController`
plumbing carry no data relevant to the claims and are not modelled. -/

/-- The observable fetch state of one widget instance, plus the
`hasFetchedOnce` ref that latches the first completed configuration cycle. -/
structure HookState where
  data : Option Json
  loading : Bool
  error : Option String
  hasFetchedOnce : Bool
deriving Repr

/-- The state a fresh hook instance mounts with. -/
def initHookState : HookState :=
  { data := none, loading := true, error := none, hasFetchedOnce := false }

/-- Truthiness of a possibly-`undefined` value (`if (initialData)`). -/
def jsTruthyOpt : Option Json → Bool
  | some v => truthy v
  | none => false

/-- One run of the hook's effect (fires on mount and on every change of
`initialData`, `apiUrl` or a process dependency).  Returns the new state and
the number of network requests issued (0 or 1).  The `hasFetchedOnce` guard
returns immediately once a cycle has completed; a truthy seed is processed
locally; otherwise a non-empty `apiUrl` starts a real fetch. -/
def runEffect (proc : Json → Except String Json) (initialData : Option Json)
    (apiUrl : String) (s : HookState) : HookState × Nat :=
  if s.hasFetchedOnce then (s, 0)
  else
    match initialData, jsTruthyOpt initialData with
    | some d, true =>
      (match proc d with
       | .ok p => ({ s with data := some p, loading := false, hasFetchedOnce := true }, 0)
       | .error e => ({ s with error := some e, loading := false }, 0))
    | _, _ =>
      if apiUrl ≠ "" then ({ s with loading := true, error := none }, 1)
      else (s, 0)

/-- Embedded `refetch()`: clear the error, then `fetchData()` — which reports
a local error when no endpoint is configured and otherwise issues a real
network request. -/
def refetch (apiUrl : String) (s : HookState) : HookState × Nat :=
  let s1 := { s with error := none }
  if apiUrl = "" then
    ({ s1 with error := some "No API URL provided", loading := false }, 0)
  else ({ s1 with loading := true, error := none }, 1)

/-- Completion of an issued fetch: `result` is the composite outcome of the
HTTP exchange, JSON decode and data processing. -/
def applyFetchResult (result : Except String Json) (s : HookState) : HookState :=
  match result with
  | .ok p => { s with data := some p, error := none, hasFetchedOnce := true, loading := false }
  | .error e => { s with error := some e, loading := false }

/-! ## HTTP status → error mapping, per fetch path -/

/-- `response.ok`: status in the 2xx range. -/
def statusOk (status : Nat) : Bool :=
  200 ≤ status && status ≤ 299

/-- The error message the shared hook's fetch (src/lib/useWidgetData.js lines
72-76) produces for a status, `none` on 2xx. -/
def hookStatusError (status : Nat) : Option String :=
  if statusOk status then none
  else if status = 429 then some "Rate Limit Exceeded"
  else if status = 401 ∨ status = 403 then some "Invalid API key or unauthorized"
  else some ("API Error: " ++ toString status)

/-- The error message the chart widget's own fetch
(src/components/widgets/StockChartWidget.js lines 71-74) produces: it has no
401/403 branch. -/
def chartStatusError (status : Nat) : Option String :=
  if statusOk status then none
  else if status = 429 then some "Rate Limit Exceeded"
  else some ("API Error: " ++ toString status)

/-- The error message the card widget's own fetch
(src/components/widgets/FinanceCardWidget.js lines 77-83) produces. -/
def cardStatusError (status : Nat) : Option String :=
  if statusOk status then none
  else if status = 429 then some "Rate limit exceeded. Try again later."
  else if status = 401 ∨ status = 403 then some "Invalid API key or unauthorized."
  else some ("API Error: " ++ toString status)

/-! ## Concrete fixtures used by counterexamples and witnesses -/

/-- A processing function that passes the payload through unchanged. -/
def exProc : Json → Except String Json := fun j => .ok j

/-- 80 numeric points `0, 1, …, 79`. -/
def exPoints : List Json := (List.range 80).map (fun i => Json.num i)

/-- A response carrying the 80 points under the key `series`. -/
def exChartRoot : Json := Json.obj [("series", Json.arr exPoints)]

/-- A well-behaved nested response: `{"alpha": {"beta": 1}, "gamma": [1, 2]}`. -/
def exGoodRoot : Json :=
  Json.obj [("alpha", Json.obj [("beta", Json.num 1)]), ("gamma", Json.arr [Json.num 1, Json.num 2])]

/-- A response wrapped in a `data` envelope: `{"data": {"x": 1}}`. -/
def exDataRoot : Json := Json.obj [("data", Json.obj [("x", Json.num 1)])]

/-- An object whose dotted key collides with a nested path:
`{"a": {"b": 1}, "a.b": 2}`. -/
def exDottedRoot : Json :=
  Json.obj [("a", Json.obj [("b", Json.num 1)]), ("a.b", Json.num 2)]



section Theorems

/-! ## C5 — the resolver is total and never raises -/

/-- A truthy value is never `null`, so reading a property of it is not
exceptional. -/
theorem jsAccess_ok (v : Json) (hv : truthy v = true) (p : String) :
    jsAccess (some v) p = .ok (jsIndex v p) := by
  cases v <;> first | rfl | simp [truthy] at hv

/-- The exception-tracking traversal step never raises and agrees with the
total step. -/
theorem stepE_eq_reduceStep (a : Option Json) (p : String) :
    stepE (.ok a) p = .ok (reduceStep a p) := by
  match a with
  | none => rfl
  | some v =>
    cases hv : truthy v with
    | true => simp [stepE, reduceStep, hv, jsAccess_ok v hv p]
    | false => simp [stepE, reduceStep, hv]

/-- Folding the exception-tracking step never raises. -/
theorem foldl_stepE (l : List String) (a : Option Json) :
    l.foldl stepE (.ok a) = .ok (l.foldl reduceStep a) := by
  induction l generalizing a with
  | nil => rfl
  | cons x xs ih => simp [List.foldl_cons, stepE_eq_reduceStep, ih]

/-- C5: `getFieldValue` is a total function that never raises for any
JSONValue/path pair — with JavaScript's exceptional property reads made
explicit (`getFieldValueE`), every input reaches an `ok` result, namely the
value (or representable `undefined`) that the total embedding
`getFieldValue` computes; nothing is ever thrown. -/
theorem getFieldValue_total (obj : Json) (path : String) :
    getFieldValueE obj path = .ok (getFieldValue obj path) := by
  by_cases h : truthy obj = false ∨ path = ""
  · simp [getFieldValueE, getFieldValue, h]
  · have ht : truthy obj = true := by
      cases htv : truthy obj with
      | false => exact absurd (Or.inl htv) h
      | true => rfl
    simp only [getFieldValueE, getFieldValue, if_neg h, jsAccess_ok obj ht]
    cases hix : jsIndex obj (stripDataEnvelope path) with
    | some v => rfl
    | none => exact foldl_stepE _ _

/-! ## C4 — the resolver's algorithm -/

/-- C4 (counterexample): a traversal step that indexes into a sequence does
not always yield NotFound — a canonical numeric segment reads the element, as
JavaScript bracket access does: resolving `"bids.0"` against
`{"bids": [7]}` yields `7`, not `undefined`. -/
theorem resolve_array_step_cx :
    getFieldValue (Json.obj [("bids", Json.arr [Json.num 7])]) "bids.0" = some (Json.num 7) := rfl

/-- C4 (amended): the resolver strips one leading `data.` envelope segment,
then tries the whole remaining path as a single literal key before falling
back to the segment-by-segment traversal; a traversal step reads an own data
property of the current value — a mapping's entry by its key, a sequence's
element by canonical numeric position, a sequence's `length` — and
short-circuits to NotFound on `null` and on an already-NotFound accumulator.
Contrary to the original claim, a step that indexes into a sequence can
succeed: at numeric positions and at `length`. -/
theorem resolve_algorithm_amended (obj : Json) (p : String) (v : Json)
    (ht : truthy obj = true) (hp : p ≠ "") :
    (∀ r : String, stripDataEnvelope ("data." ++ r) = r) ∧
    (jsIndex obj (stripDataEnvelope p) = some v → getFieldValue obj p = some v) ∧
    (jsIndex obj (stripDataEnvelope p) = none →
      getFieldValue obj p = walk obj (splitDot (stripDataEnvelope p))) ∧
    (∀ es w, objLookup es p = some w → reduceStep (some (Json.obj es)) p = some w) ∧
    (∀ xs n x, canonIndex p = some n → xs[n]? = some x →
      reduceStep (some (Json.arr xs)) p = some x) ∧
    (∀ xs : List Json,
      reduceStep (some (Json.arr xs)) "length" = some (Json.num xs.length)) ∧
    reduceStep (some Json.null) p = none ∧
    reduceStep none p = none := by
  have hguard : ¬(truthy obj = false ∨ p = "") := by
    rintro (h' | h')
    · rw [ht] at h'; exact Bool.noConfusion h'
    · exact hp h'
  refine ⟨?_, ?_, ?_, ?_, ?_, ?_, ?_, rfl⟩
  · intro r
    show stripDataEnvelope ("data." ++ r) = r
    have hd : ("data." ++ r).data = 'd' :: 'a' :: 't' :: 'a' :: '.' :: r.data := by
      rw [String.data_append]; rfl
    simp [stripDataEnvelope, hd, dataPat]
  · intro hx
    simp [getFieldValue, if_neg hguard, hx]
  · intro hx
    simp [getFieldValue, if_neg hguard, hx]
  · intro es w h
    simp [reduceStep, truthy, jsIndex, h]
  · intro xs n x h1 h2
    have hl : p ≠ "length" := by
      intro hpl
      subst hpl
      rw [show canonIndex "length" = none from rfl] at h1
      cases h1
    simp [reduceStep, truthy, jsIndex, hl, h1, h2]
  · intro xs
    simp [reduceStep, truthy, jsIndex]
  · rfl

/-- C4 (witness): the amended resolver description holds at
`{"book": {"bid": 3}}` with path `"book.bid"`, and the `length` own data
property of a concrete sequence really resolves: `{"bids": [7]}` at
`"bids.length"` yields `1`, not NotFound. -/
theorem resolve_algorithm_amended_witness :
    truthy (Json.obj [("book", Json.obj [("bid", Json.num 3)])]) = true ∧
    ("book.bid" : String) ≠ "" ∧
    (jsIndex (Json.obj [("book", Json.obj [("bid", Json.num 3)])])
        (stripDataEnvelope "book.bid") = none →
      getFieldValue (Json.obj [("book", Json.obj [("bid", Json.num 3)])]) "book.bid" =
        walk (Json.obj [("book", Json.obj [("bid", Json.num 3)])])
          (splitDot (stripDataEnvelope "book.bid"))) ∧
    reduceStep (some (Json.arr [Json.num 7])) "length" = some (Json.num 1) ∧
    getFieldValue (Json.obj [("bids", Json.arr [Json.num 7])]) "bids.length" =
      some (Json.num 1) := by
  refine ⟨rfl, by decide, ?_, ?_, ?_⟩
  · exact (resolve_algorithm_amended
      (Json.obj [("book", Json.obj [("bid", Json.num 3)])]) "book.bid" (Json.num 3)
      rfl (by decide)).2.2.1
  · have h := (resolve_algorithm_amended
      (Json.obj [("book", Json.obj [("bid", Json.num 3)])]) "book.bid" (Json.num 3)
      rfl (by decide)).2.2.2.2.2.1 [Json.num 7]
    simpa using h
  · rfl

/-! ## C2 — what a mapping key contributes to discovery -/

/-- C2 (counterexample): discovery of `{"a": {"b": 1}}` returns exactly
`["a.b"]`, not `["a", "a.b"]` — a key whose value is a mapping contributes
only its recursively discovered sub-paths, never its own path. -/
theorem mapping_keys_subpaths_only_cx :
    extractFields (Json.obj [("a", Json.obj [("b", Json.num 1)])]) "" 0 10 = ["a.b"] ∧
    extractFields (Json.obj [("a", Json.obj [("b", Json.num 1)])]) "" 0 10 ≠ ["a", "a.b"] :=
  ⟨rfl, by decide⟩

/-! ## C7 — adding a widget to the collection -/

/-- C7 (counterexample): `addWidget` does not assign an id distinct from
every id already present — the id is the clock reading, so adding to a
collection that already holds a widget with id `"100"` at clock time 100
duplicates the id. -/
theorem add_widget_fresh_id_cx :
    ((addWidget [⟨"100", "card", "w0"⟩] ⟨"chart", "w1"⟩ 100).map Widget.id) = ["100", "100"] ∧
    ¬ ((addWidget [⟨"100", "card", "w0"⟩] ⟨"chart", "w1"⟩ 100).map Widget.id).Nodup :=
  ⟨rfl, by decide⟩

/-- C7 (amended): `addWidget` appends the new widget at the end with id
`Date.now().toString()` and leaves all existing entries and their order
unchanged; whenever that clock string differs from every id already present
(e.g. when the clock is strictly monotone across adds), the new id is fresh
and the unique-ids invariant of the collection is preserved. -/
theorem addWidget_appends_fresh (ws : List Widget) (cfg : WidgetSpec) (now : Nat)
    (h1 : (ws.map Widget.id).Nodup) (h2 : toString now ∉ ws.map Widget.id) :
    ((addWidget ws cfg now).map Widget.id).Nodup ∧
    (addWidget ws cfg now).take ws.length = ws ∧
    (addWidget ws cfg now).getLast? = some ⟨toString now, cfg.wtype, cfg.title⟩ := by
  unfold addWidget
  refine ⟨?_, ?_, ?_⟩
  · simp only [List.map_append, List.map_cons, List.map_nil]
    rw [List.nodup_append]
    refine ⟨h1, List.nodup_singleton _, fun a ha hb => ?_⟩
    rw [List.mem_singleton] at hb
    subst hb
    exact h2 ha
  · exact List.take_left ws _
  · exact List.getLast?_concat _

/-- C7 (witness): adding to `[{id := "1"}]` at clock time 2 preserves the
unique-ids invariant and appends at the end. -/
theorem addWidget_appends_fresh_witness :
    (([⟨"1", "card", "w0"⟩] : List Widget).map Widget.id).Nodup ∧
    toString 2 ∉ ([⟨"1", "card", "w0"⟩] : List Widget).map Widget.id ∧
    ((addWidget [⟨"1", "card", "w0"⟩] ⟨"table", "w1"⟩ 2).map Widget.id).Nodup := by
  refine ⟨by decide, by decide, ?_⟩
  exact (addWidget_appends_fresh [⟨"1", "card", "w0"⟩] ⟨"table", "w1"⟩ 2
    (by decide) (by decide)).1

/-! ## C6 — HTTP status to failure-reason mapping -/

/-- C6 (counterexample): the mapping does not hold on every widget type's
fetch path — the chart widget's own fetch maps status 401 to the generic
`API Error: 401`, while the shared hook maps it to the unauthorized message. -/
theorem status_mapping_uniform_cx :
    chartStatusError 401 = some "API Error: 401" ∧
    hookStatusError 401 = some "Invalid API key or unauthorized" ∧
    chartStatusError 401 ≠ hookStatusError 401 := by
  refine ⟨rfl, rfl, by decide⟩

/-- C6 (amended): on every non-2xx status, the shared hook's fetch path and
the card widget's fetch path map 429 to their rate-limited message, 401 and
403 to their unauthorized message, and anything else to the generic
`API Error: <status>`; the chart widget's own fetch path maps 429 the same
way but has no 401/403 branch, so those statuses fall through to the generic
message and differ from the shared hook's result. -/
theorem status_mapping_per_path (s : Nat) (h : statusOk s = false) :
    hookStatusError s = some (if s = 429 then "Rate Limit Exceeded"
      else if s = 401 ∨ s = 403 then "Invalid API key or unauthorized"
      else "API Error: " ++ toString s) ∧
    cardStatusError s = some (if s = 429 then "Rate limit exceeded. Try again later."
      else if s = 401 ∨ s = 403 then "Invalid API key or unauthorized."
      else "API Error: " ++ toString s) ∧
    chartStatusError s = some (if s = 429 then "Rate Limit Exceeded"
      else "API Error: " ++ toString s) ∧
    (s = 401 ∨ s = 403 → chartStatusError s ≠ hookStatusError s) := by
  refine ⟨?_, ?_, ?_, ?_⟩
  · unfold hookStatusError
    rw [h]
    simp only [Bool.false_eq_true, if_false]
    split_ifs <;> rfl
  · unfold cardStatusError
    rw [h]
    simp only [Bool.false_eq_true, if_false]
    split_ifs <;> rfl
  · unfold chartStatusError
    rw [h]
    simp only [Bool.false_eq_true, if_false]
    split_ifs <;> rfl
  · rintro (rfl | rfl) <;> decide

/-- C6 (witness): the per-path mapping at status 404 (and the 401 divergence
of the chart path). -/
theorem status_mapping_per_path_witness :
    statusOk 404 = false ∧
    hookStatusError 404 = some "API Error: 404" ∧
    statusOk 401 = false ∧
    chartStatusError 401 ≠ hookStatusError 401 := by
  refine ⟨rfl, ?_, rfl, ?_⟩
  · have := (status_mapping_per_path 404 rfl).1
    simpa using this
  · exact (status_mapping_per_path 401 rfl).2.2.2 (Or.inl rfl)

/-! ## C3 — seed consumption and the once-latch -/

/-- C3 (counterexample): after the seed is consumed, a reconfiguration
(endpoint change) does **not** issue a real network fetch — the
`hasFetchedOnce` latch makes the effect return immediately, so the second
configuration cycle performs zero network calls. -/
theorem seed_reconfig_no_fetch_cx :
    (runEffect exProc (some (Json.num 1)) "https://api.one" initHookState).2 = 0 ∧
    (runEffect exProc (some (Json.num 1)) "https://api.one" initHookState).1.hasFetchedOnce
      = true ∧
    (runEffect exProc none "https://api.two"
      (runEffect exProc (some (Json.num 1)) "https://api.one" initHookState).1).2 = 0 :=
  ⟨rfl, rfl, rfl⟩

/-- C3 (amended): a truthy seed response is consumed at most once per
instance: the first configuration cycle processes it with zero network calls
and sets the once-latch; every later effect cycle (any reconfiguration of
endpoint or auth key) returns immediately with zero network calls and an
unchanged state; a manual `refetch()` with a configured endpoint always
issues a real network call. -/
theorem seed_once_latch (proc : Json → Except String Json) (seed p : Json)
    (url url2 url3 : String) (init2 : Option Json)
    (hseed : truthy seed = true) (hp : proc seed = Except.ok p) (h3 : url3 ≠ "") :
    (runEffect proc (some seed) url initHookState).2 = 0 ∧
    (runEffect proc (some seed) url initHookState).1.hasFetchedOnce = true ∧
    (∀ s : HookState, s.hasFetchedOnce = true → runEffect proc init2 url2 s = (s, 0)) ∧
    (refetch url3 (runEffect proc (some seed) url initHookState).1).2 = 1 := by
  have h1 : runEffect proc (some seed) url initHookState =
      ({ initHookState with data := some p, loading := false, hasFetchedOnce := true }, 0) := by
    simp [runEffect, initHookState, jsTruthyOpt, hseed, hp]
  refine ⟨by rw [h1], by rw [h1], ?_, ?_⟩
  · intro s hs
    simp [runEffect, hs]
  · rw [h1]
    simp [refetch, h3]

/-- C3 (witness): the once-latch behavior at a concrete seed and endpoints. -/
theorem seed_once_latch_witness :
    truthy (Json.num 1) = true ∧
    exProc (Json.num 1) = Except.ok (Json.num 1) ∧
    ("https://api.three" : String) ≠ "" ∧
    (refetch "https://api.three"
      (runEffect exProc (some (Json.num 1)) "https://api.one" initHookState).1).2 = 1 := by
  refine ⟨rfl, rfl, by decide, ?_⟩
  exact (seed_once_latch exProc (Json.num 1) (Json.num 1) "https://api.one" "https://api.two"
    "https://api.three" none rfl rfl (by decide)).2.2.2

/-! ## C1 / C8 — counterexamples to the round-trip and to de-duplication -/

/-- C1 (counterexample): the discover-then-resolve round-trip fails — on
`{"data": {"x": 1}}` discovery returns the path `"data.x"`, whose leading
`data.` segment the resolver strips, so resolution looks up `"x"` at the
root and yields NotFound (`undefined`). -/
theorem discover_resolve_roundtrip_cx :
    extractFields exDataRoot "" 0 10 = ["data.x"] ∧
    getFieldValue exDataRoot "data.x" = none :=
  ⟨rfl, rfl⟩

/-- C8 (counterexample): discovery output is not de-duplicated — on
`{"a": {"b": 1}, "a.b": 2}` the nested path and the dotted literal key both
produce `"a.b"`, which therefore occurs twice. -/
theorem discover_dedup_cx :
    extractFields exDottedRoot "" 0 10 = ["a.b", "a.b"] ∧
    ¬ (extractFields exDottedRoot "" 0 10).Nodup :=
  ⟨rfl, by decide⟩

/-! ## C9 — chart truncation to the most recent 50 points -/

/-- On a series whose elements are all numbers, the pair-format branch is not
taken: labels are synthesized `Pt i` strings and points are the parsed
elements. -/
theorem chartSeries_nums (xs : List Json) (h2 : ∀ x ∈ xs, ∃ q : Rat, x = .num q) :
    chartSeries xs = .ok
      (xs.mapIdx (fun i _ => some (Json.str ("Pt " ++ toString (i + 1)))),
        xs.map parseFloatJs) := by
  cases xs with
  | nil => rfl
  | cons a t =>
    obtain ⟨q, rfl⟩ := h2 a (by simp)
    rfl

/-- C9: `processChartData` truncates uniformly to the most recent 50
(label, point) pairs — whenever the selected field resolves to a sequence of
numbers, the output is exactly the last `min n 50` synthesized labels and
parsed points (all of them when `n ≤ 50`, the final 50 when `n > 50`). -/
theorem chart_truncation (root : Json) (fields : List String) (title : String)
    (xs : List Json)
    (h1 : getFieldValue root (fields.headD "") = some (.arr xs))
    (h2 : ∀ x ∈ xs, ∃ q : Rat, x = .num q) :
    ∃ out, processChartData root fields title = .ok out ∧
      out.labels =
        (xs.mapIdx (fun i _ => some (Json.str ("Pt " ++ toString (i + 1))))).drop
          (xs.length - 50) ∧
      out.points = (xs.map parseFloatJs).drop (xs.length - 50) ∧
      out.labels.length = min xs.length 50 ∧
      out.points.length = min xs.length 50 := by
  classical
  have hseries := chartSeries_nums xs h2
  have hlab : (xs.mapIdx (fun i _ => some (Json.str ("Pt " ++ toString (i + 1))))).length
      = xs.length := by simp
  have hpts : (xs.map parseFloatJs).length = xs.length := by simp
  have hmain : processChartData root fields title =
      if (xs.mapIdx (fun i _ => some (Json.str ("Pt " ++ toString (i + 1))))).length > 50 then
        Except.ok
          ⟨(xs.mapIdx (fun i _ => some (Json.str ("Pt " ++ toString (i + 1))))).drop
              ((xs.mapIdx (fun i _ => some (Json.str ("Pt " ++ toString (i + 1))))).length - 50),
            (xs.map parseFloatJs).drop ((xs.map parseFloatJs).length - 50),
            if title = "" then "Price" else title⟩
      else
        Except.ok
          ⟨xs.mapIdx (fun i _ => some (Json.str ("Pt " ++ toString (i + 1)))),
            xs.map parseFloatJs, if title = "" then "Price" else title⟩ := by
    unfold processChartData
    simp only [h1]
    cases xs with
    | nil =>
      simp at hseries ⊢
      rw [hseries]
      rfl
    | cons a t =>
      obtain ⟨q, rfl⟩ := h2 a (by simp)
      simp only []
      rw [hseries]
  rw [hmain]
  by_cases hlen : xs.length > 50
  · rw [if_pos (by rw [hlab]; exact hlen)]
    refine ⟨_, rfl, ?_, ?_, ?_, ?_⟩
    · simp [hlab]
    · simp [hpts]
    · simp [hlab]
      omega
    · simp [hpts]
      omega
  · rw [if_neg (by rw [hlab]; exact hlen)]
    have h0 : xs.length - 50 = 0 := by omega
    refine ⟨_, rfl, ?_, ?_, ?_, ?_⟩
    · simp [h0]
    · simp [h0]
    · simp [hlab]
      omega
    · simp [hpts]
      omega

/-- C9 (witness): on 80 numeric points the output has exactly 50 labels and
50 points. -/
theorem chart_truncation_witness :
    getFieldValue exChartRoot (["series"].headD "") = some (.arr exPoints) ∧
    ∃ out, processChartData exChartRoot ["series"] "Stock" = .ok out ∧
      out.labels.length = 50 ∧ out.points.length = 50 := by
  refine ⟨rfl, ?_⟩
  obtain ⟨out, hout, _, _, h4, h5⟩ :=
    chart_truncation exChartRoot ["series"] "Stock" exPoints rfl
      (by
        intro x hx
        simp only [exPoints, List.mem_map] at hx
        obtain ⟨i, _, rfl⟩ := hx
        exact ⟨i, rfl⟩)
  have hlen : exPoints.length = 80 := rfl
  rw [hlen] at h4 h5
  exact ⟨out, hout, by simpa using h4, by simpa using h5⟩

/-! ## C10 — the card adapter's shape -/

/-- Reading a key from an appended property list falls through to the suffix
exactly when the prefix lacks the key. -/
theorem getProp_append (m l : List (String × Option Json)) (k : String) :
    getProp (m ++ l) k =
      match getProp m k with
      | some v => some v
      | none => getProp l k := by
  induction m with
  | nil => rfl
  | cons e rest ih =>
    obtain ⟨a, b⟩ := e
    by_cases hak : a = k <;> simp [getProp, hak, ih]

/-- A key absent from the list reads as absent. -/
theorem getProp_eq_none (m : List (String × Option Json)) (k : String)
    (h : m.any (fun e => e.1 = k) = false) : getProp m k = none := by
  induction m with
  | nil => rfl
  | cons e rest ih =>
    obtain ⟨a, b⟩ := e
    simp only [List.any_cons, Bool.or_eq_false_iff] at h
    have hak : a ≠ k := by simpa using h.1
    simp [getProp, hak, ih h.2]

/-- Overwriting an existing key in place makes it read the new value. -/
theorem getProp_overwrite (m : List (String × Option Json)) (k : String) (v : Option Json)
    (hm : m.any (fun e => e.1 = k) = true) :
    getProp (m.map (fun e => if e.1 = k then (k, v) else e)) k = some v := by
  induction m with
  | nil => simp at hm
  | cons e rest ih =>
    obtain ⟨a, b⟩ := e
    rw [List.map_cons]
    by_cases hak : a = k
    · subst hak
      rw [if_pos rfl]
      show (if a = a then some v else getProp (rest.map _) a) = some v
      rw [if_pos rfl]
    · rw [if_neg hak]
      show (if a = k then some b else getProp (rest.map _) k) = some v
      rw [if_neg hak]
      apply ih
      simp only [List.any_cons] at hm
      rcases Bool.or_eq_true_iff.mp hm with h' | h'
      · exact absurd (by simpa using h') hak
      · exact h'

/-- Overwriting one key leaves every other key's reading unchanged. -/
theorem getProp_map_ne (m : List (String × Option Json)) (k : String) (v : Option Json)
    (k' : String) (hk : k' ≠ k) :
    getProp (m.map (fun e => if e.1 = k then (k, v) else e)) k' = getProp m k' := by
  induction m with
  | nil => rfl
  | cons e rest ih =>
    obtain ⟨a, b⟩ := e
    rw [List.map_cons]
    by_cases hak : a = k
    · subst hak
      rw [if_pos rfl]
      show (if a = k' then some v else getProp (rest.map _) k') =
        if a = k' then some b else getProp rest k'
      rw [if_neg (fun h => hk h.symm), if_neg (fun h => hk h.symm), ih]
    · rw [if_neg hak]
      show (if a = k' then some b else getProp (rest.map _) k') =
        if a = k' then some b else getProp rest k'
      rw [ih]

/-- JavaScript assignment semantics of `setProp`: the assigned key reads the
assigned value, every other key is untouched. -/
theorem getProp_setProp (m : List (String × Option Json)) (k : String) (v : Option Json)
    (k' : String) :
    getProp (setProp m k v) k' = if k' = k then some v else getProp m k' := by
  unfold setProp
  by_cases hm : m.any (fun e => e.1 = k) = true
  · rw [if_pos hm]
    by_cases hk : k' = k
    · subst hk
      rw [if_pos rfl, getProp_overwrite m k' v hm]
    · rw [if_neg hk, getProp_map_ne m k v k' hk]
  · have hm' : m.any (fun e => e.1 = k) = false := by
      cases h' : m.any (fun e => e.1 = k)
      · rfl
      · exact absurd h' hm
    rw [if_neg hm, getProp_append]
    by_cases hk : k' = k
    · subst hk
      rw [getProp_eq_none m k' hm']
      simp [getProp]
    · rw [if_neg hk]
      cases h' : getProp m k' <;> simp [getProp, Ne.symm hk]

/-- The card fold invariant: after folding any suffix of fields over any
accumulator, a key reads the value of the **last** field whose final segment
is that key, falling back to the accumulator. -/
theorem card_fold (root : Json) (fs : List String) (acc : List (String × Option Json))
    (k : String) :
    getProp (fs.foldl (fun a p => setProp a (lastSeg p) (getFieldValue root p)) acc) k =
      match (fs.filter (fun q => lastSeg q == k)).getLast? with
      | some p => some (getFieldValue root p)
      | none => getProp acc k := by
  induction fs generalizing acc with
  | nil => rfl
  | cons p fs' ih =>
    rw [List.foldl_cons, ih]
    by_cases hlp : lastSeg p = k
    · rw [List.filter_cons_of_pos (by simpa using hlp)]
      rw [List.getLast?_cons]
      cases hrest : (fs'.filter (fun q => lastSeg q == k)).getLast? with
      | some q => simp [hrest]
      | none => simp [hrest, getProp_setProp, hlp]
    · rw [List.filter_cons_of_neg (by simpa using hlp)]
      cases hrest : (fs'.filter (fun q => lastSeg q == k)).getLast? with
      | some q => simp [hrest]
      | none => simp [hrest, getProp_setProp, Ne.symm hlp]

/-- C10: the card object produced by `processCardData` has an entry for the
final dot-segment of **every** input path — including paths that do not
resolve, whose entries carry the `undefined` value — its key set is exactly
the set of final segments of the input paths, and on equal final segments a
later path overwrites an earlier one (the key reads the last matching path's
resolved value). -/
theorem card_shape_keys_lastwrite (root : Json) (fs : List String) (k : String) :
    getProp (processCardData root fs) k =
      ((fs.filter (fun q => lastSeg q == k)).getLast?).map (getFieldValue root) ∧
    (getProp (processCardData root fs) k ≠ none ↔ k ∈ fs.map lastSeg) := by
  have hfold := card_fold root fs [] k
  have heq : getProp (processCardData root fs) k =
      ((fs.filter (fun q => lastSeg q == k)).getLast?).map (getFieldValue root) := by
    rw [processCardData, hfold]
    cases h : (fs.filter (fun q => lastSeg q == k)).getLast? <;> simp [h, getProp]
  refine ⟨heq, ?_⟩
  rw [heq]
  constructor
  · intro hne
    have : (fs.filter (fun q => lastSeg q == k)).getLast? ≠ none := by
      intro h
      rw [h] at hne
      exact hne rfl
    have hmem : (fs.filter (fun q => lastSeg q == k)) ≠ [] := by
      intro h
      rw [h] at this
      exact this rfl
    obtain ⟨q, hq⟩ := List.exists_mem_of_ne_nil _ hmem
    have := List.of_mem_filter hq
    have hq' : q ∈ fs := List.mem_of_mem_filter hq
    rw [List.mem_map]
    exact ⟨q, hq', by simpa using this⟩
  · intro hk
    rw [List.mem_map] at hk
    obtain ⟨q, hq, rfl⟩ := hk
    have hmem : q ∈ fs.filter (fun r => lastSeg r == lastSeg q) :=
      List.mem_filter.mpr ⟨hq, by simp⟩
    cases hfil : fs.filter (fun r => lastSeg r == lastSeg q) with
    | nil =>
      rw [hfil] at hmem
      exact absurd hmem (List.not_mem_nil q)
    | cons a t =>
      simp [List.getLast?_cons]

/-! ## Segment-level facts about dot-splitting

These connect the string paths discovery builds by concatenation with the
segment lists the resolver's fallback traversal consumes. -/

/-- Splitting never produces an empty group list. -/
theorem splitChars_ne_nil : ∀ cs : List Char, splitChars cs ≠ [] := by
  intro cs
  match cs with
  | [] => simp [splitChars]
  | c :: cs' =>
    unfold splitChars
    by_cases hc : c = '.'
    · simp [hc]
    · rw [if_neg hc]
      cases h : splitChars cs' <;> simp

/-- A dot-free character list splits into the single group it is. -/
theorem splitChars_dotFree (cs : List Char) (h : ∀ c ∈ cs, c ≠ '.') :
    splitChars cs = [cs] := by
  induction cs with
  | nil => rfl
  | cons c cs' ih =>
    have hc : c ≠ '.' := h c (by simp)
    unfold splitChars
    rw [if_neg hc, ih (fun x hx => h x (by simp [hx]))]

/-- Appending a dot and a dot-free group appends exactly that group to the
split. -/
theorem splitChars_append_dot (xs k : List Char) (hk : ∀ c ∈ k, c ≠ '.') :
    splitChars (xs ++ '.' :: k) = splitChars xs ++ [k] := by
  induction xs with
  | nil =>
    simp only [List.nil_append]
    unfold splitChars
    rw [if_pos rfl, splitChars_dotFree k hk]
    rfl
  | cons c xs' ih =>
    simp only [List.cons_append]
    unfold splitChars
    by_cases hc : c = '.'
    · rw [if_pos hc, if_pos hc, ih]
      rfl
    · rw [if_neg hc, if_neg hc, ih]
      cases h : splitChars xs' with
      | nil => exact absurd h (splitChars_ne_nil xs')
      | cons g gs => rfl

/-- Rejoining the split recovers the original characters. -/
theorem joinChars_splitChars : ∀ cs : List Char, joinChars (splitChars cs) = cs := by
  intro cs
  induction cs with
  | nil => rfl
  | cons c cs' ih =>
    unfold splitChars
    by_cases hc : c = '.'
    · subst hc
      rw [if_pos rfl]
      show joinChars ([] :: splitChars cs') = '.' :: cs'
      cases h : splitChars cs' with
      | nil => exact absurd h (splitChars_ne_nil cs')
      | cons g gs =>
        rw [h] at ih
        show [] ++ '.' :: joinChars (g :: gs) = '.' :: cs'
        rw [List.nil_append, ih]
    · rw [if_neg hc]
      cases h : splitChars cs' with
      | nil => exact absurd h (splitChars_ne_nil cs')
      | cons g gs =>
        rw [h] at ih
        cases gs with
        | nil =>
          show (c :: g) = c :: cs'
          simpa using ih
        | cons g' gs' =>
          show (c :: g) ++ '.' :: joinChars (g' :: gs') = c :: cs'
          simpa using ih

/-- Extract the two halves of `dotFree`. -/
theorem dotFree_spec (k : String) (h : dotFree k = true) :
    k ≠ "" ∧ ∀ c ∈ k.data, c ≠ '.' := by
  unfold dotFree at h
  rw [Bool.and_eq_true] at h
  constructor
  · intro hk
    subst hk
    simp at h
  · intro c hc
    have := h.2
    rw [List.all_eq_true] at this
    simpa using this c hc

/-- A non-empty string has non-empty characters. -/
theorem data_ne_nil_of_ne_empty (s : String) (h : s ≠ "") : s.data ≠ [] := by
  intro hd
  exact h (String.ext hd)

/-- The extended prefix is never the empty string. -/
theorem mkPre_ne_empty (pre k : String) (hk : dotFree k = true) : mkPre pre k ≠ "" := by
  obtain ⟨hk1, _⟩ := dotFree_spec k hk
  unfold mkPre
  by_cases hpre : pre = ""
  · rw [if_pos hpre]
    exact hk1
  · rw [if_neg hpre]
    intro h
    have hd : (pre ++ "." ++ k).data = [] := by rw [h]
    rw [String.data_append, String.data_append] at hd
    simp at hd

/-- Splitting an extended prefix appends the new key as one segment. -/
theorem splitDot_mkPre (pre k : String) (hk : dotFree k = true) :
    splitDot (mkPre pre k) = baseSegs pre ++ [k] := by
  obtain ⟨hk1, hk2⟩ := dotFree_spec k hk
  unfold mkPre baseSegs
  by_cases hpre : pre = ""
  · rw [if_pos hpre, if_pos hpre]
    unfold splitDot
    rw [splitChars_dotFree k.data hk2]
    simp
  · rw [if_neg hpre, if_neg hpre]
    unfold splitDot
    have hd : (pre ++ "." ++ k).data = pre.data ++ '.' :: k.data := by
      rw [String.data_append, String.data_append, List.append_assoc]
      rfl
    rw [hd, splitChars_append_dot pre.data k.data hk2]
    simp

/-- The segment list of an extended prefix. -/
theorem baseSegs_mkPre (pre k : String) (hk : dotFree k = true) :
    baseSegs (mkPre pre k) = baseSegs pre ++ [k] := by
  have h1 := mkPre_ne_empty pre k hk
  have h2 := splitDot_mkPre pre k hk
  unfold baseSegs
  rw [if_neg h1]
  exact h2

/-- A path whose first segment is non-empty is itself non-empty. -/
theorem ne_empty_of_splitDot (p k : String) (tail : List String)
    (hsplit : splitDot p = k :: tail) (hk : k ≠ "") : p ≠ "" := by
  intro hp
  subst hp
  have : splitDot "" = [""] := rfl
  rw [this] at hsplit
  cases hsplit
  exact hk rfl

/-! ## The `data.` envelope stripper is inert on well-keyed paths -/

/-- Inversion of the envelope pattern. -/
theorem dataPat_eq_some (cs r : List Char) (h : dataPat cs = some r) :
    cs = 'd' :: 'a' :: 't' :: 'a' :: '.' :: r := by
  unfold dataPat at h
  split at h
  · cases h
    rfl
  · cases h

/-- A path that starts with a non-empty dot-free segment other than `data`
does not match the envelope pattern, whatever follows the segment (nothing,
or a dot and more). -/
theorem dataPat_key_none (kc rest : List Char)
    (h1 : kc ≠ []) (h2 : ∀ c ∈ kc, c ≠ '.') (h3 : kc ≠ ['d', 'a', 't', 'a'])
    (h4 : rest = [] ∨ ∃ r, rest = '.' :: r) :
    dataPat (kc ++ rest) = none := by
  cases hd : dataPat (kc ++ rest) with
  | none => rfl
  | some r =>
    exfalso
    have heq := dataPat_eq_some _ _ hd
    match kc, heq with
    | [c0], heq =>
      rcases h4 with rfl | ⟨r', rfl⟩
      · simp at heq
      · simp only [List.cons_append, List.nil_append, List.cons.injEq] at heq
        exact absurd heq.2.1.symm (by decide)
    | [c0, c1], heq =>
      rcases h4 with rfl | ⟨r', rfl⟩
      · simp at heq
      · simp only [List.cons_append, List.nil_append, List.cons.injEq] at heq
        exact absurd heq.2.2.1.symm (by decide)
    | [c0, c1, c2], heq =>
      rcases h4 with rfl | ⟨r', rfl⟩
      · simp at heq
      · simp only [List.cons_append, List.nil_append, List.cons.injEq] at heq
        exact absurd heq.2.2.2.1.symm (by decide)
    | [c0, c1, c2, c3], heq =>
      simp only [List.cons_append, List.nil_append, List.cons.injEq] at heq
      exact h3 (by simp [heq.1, heq.2.1, heq.2.2.1, heq.2.2.2.1])
    | c0 :: c1 :: c2 :: c3 :: c4 :: kc', heq =>
      simp only [List.cons_append, List.cons.injEq] at heq
      exact h2 c4 (by simp) heq.2.2.2.2.1

/-- On a path whose first segment is a non-empty dot-free key other than
`data`, the envelope stripper is the identity. -/
theorem stripDataEnvelope_of_head (p k : String) (tail : List String)
    (hsplit : splitDot p = k :: tail)
    (h1 : k ≠ "") (h2 : ∀ c ∈ k.data, c ≠ '.') (h3 : k ≠ "data") :
    stripDataEnvelope p = p := by
  have hkc3 : k.data ≠ ['d', 'a', 't', 'a'] := by
    intro hh
    exact h3 (String.ext hh)
  have hpat : dataPat p.data = none := by
    unfold splitDot at hsplit
    cases hsc : splitChars p.data with
    | nil => exact absurd hsc (splitChars_ne_nil p.data)
    | cons g gs =>
      rw [hsc] at hsplit
      simp only [List.map_cons, List.cons.injEq] at hsplit
      have hgk : g = k.data := by
        have := hsplit.1
        rw [← this]
      have hjoin := joinChars_splitChars p.data
      rw [hsc] at hjoin
      cases gs with
      | nil =>
        have hdata : p.data = k.data ++ [] := by
          rw [← hjoin, hgk]
          simp [joinChars]
        rw [hdata]
        exact dataPat_key_none k.data [] (data_ne_nil_of_ne_empty k h1) h2 hkc3 (Or.inl rfl)
      | cons g' gs' =>
        have hdata : p.data = k.data ++ ('.' :: joinChars (g' :: gs')) := by
          rw [← hjoin, hgk]
          rfl
        rw [hdata]
        exact dataPat_key_none k.data _ (data_ne_nil_of_ne_empty k h1) h2 hkc3
          (Or.inr ⟨joinChars (g' :: gs'), rfl⟩)
  unfold stripDataEnvelope
  rw [hpat]

/-! ## Well-keyed entry lists: lookup and membership facts -/

/-- Unfold one entry of `goodKeysEntries`. -/
theorem goodKeysEntries_cons (k : String) (v : Json) (rest : List (String × Json))
    (h : goodKeysEntries ((k, v) :: rest) = true) :
    dotFree k = true ∧ hasKey rest k = false ∧ goodKeys v = true ∧
      goodKeysEntries rest = true := by
  unfold goodKeysEntries at h
  simp only [Bool.and_eq_true, Bool.not_eq_true'] at h
  exact ⟨h.1.1.1, h.1.1.2, h.1.2, h.2⟩

/-- Every entry of a well-keyed list has a dot-free key and a well-keyed
value. -/
theorem goodKeysEntries_mem (es : List (String × Json)) (hg : goodKeysEntries es = true)
    (k : String) (v : Json) (hmem : (k, v) ∈ es) :
    dotFree k = true ∧ goodKeys v = true := by
  induction es with
  | nil => cases hmem
  | cons e rest ih =>
    obtain ⟨a, b⟩ := e
    obtain ⟨h1, h2, h3, h4⟩ := goodKeysEntries_cons a b rest hg
    rcases List.mem_cons.mp hmem with heq | hmem'
    · cases heq
      exact ⟨h1, h3⟩
    · exact ih h4 hmem'

/-- A present key is found by `hasKey`. -/
theorem hasKey_of_mem (es : List (String × Json)) (k : String) (v : Json)
    (hmem : (k, v) ∈ es) : hasKey es k = true := by
  unfold hasKey
  rw [List.any_eq_true]
  exact ⟨(k, v), hmem, by simp⟩

/-- In a well-keyed list, lookup finds exactly the member entry's value. -/
theorem objLookup_of_goodKeysEntries (es : List (String × Json))
    (hg : goodKeysEntries es = true) (k : String) (v : Json) (hmem : (k, v) ∈ es) :
    objLookup es k = some v := by
  induction es with
  | nil => cases hmem
  | cons e rest ih =>
    obtain ⟨a, b⟩ := e
    obtain ⟨h1, h2, h3, h4⟩ := goodKeysEntries_cons a b rest hg
    rcases List.mem_cons.mp hmem with heq | hmem'
    · cases heq
      show objLookup ((k, v) :: rest) k = some v
      unfold objLookup
      rw [if_pos rfl]
    · unfold objLookup
      have hak : a ≠ k := by
        intro h
        subst h
        rw [hasKey_of_mem rest a v hmem'] at h2
        cases h2
      rw [if_neg hak]
      exact ih h4 hmem'

/-- In a well-keyed list, a key determines its value. -/
theorem mem_value_unique (es : List (String × Json)) (hg : goodKeysEntries es = true)
    (k : String) (a b : Json) (ha : (k, a) ∈ es) (hb : (k, b) ∈ es) : a = b := by
  have h1 := objLookup_of_goodKeysEntries es hg k a ha
  have h2 := objLookup_of_goodKeysEntries es hg k b hb
  rw [h1] at h2
  cases h2
  rfl

/-- Every entry of a no-descent list has a no-descent value. -/
theorem noDescentEntries_mem (es : List (String × Json)) (hg : noDescentEntries es = true)
    (k : String) (v : Json) (hmem : (k, v) ∈ es) : noDescent v = true := by
  induction es with
  | nil => cases hmem
  | cons e rest ih =>
    obtain ⟨a, b⟩ := e
    unfold noDescentEntries at hg
    rw [Bool.and_eq_true] at hg
    rcases List.mem_cons.mp hmem with heq | hmem'
    · cases heq
      exact hg.1
    · exact ih hg.2 hmem'

/-! ## Traversal helpers -/

/-- The first traversal step out of an object is a lookup. -/
theorem walk_obj_cons (es : List (String × Json)) (k : String) (v : Json)
    (tail : List String) (hlk : objLookup es k = some v) :
    walk (Json.obj es) (k :: tail) = walk v tail := by
  unfold walk
  rw [List.foldl_cons]
  have hstep : reduceStep (some (Json.obj es)) k = some v := by
    simp [reduceStep, truthy, jsIndex, hlk]
  rw [hstep]

/-- An already-NotFound accumulator stays NotFound. -/
theorem foldl_reduceStep_none (l : List String) : l.foldl reduceStep none = none := by
  induction l with
  | nil => rfl
  | cons x xs ih => simpa [List.foldl_cons, reduceStep] using ih

/-! ## The discover-then-resolve round trip, entry level -/

/-- The one-entry unfolding of `extractEntries`. -/
theorem extractEntries_cons_eq (k : String) (v : Json) (rest : List (String × Json))
    (pre : String) (d m : Nat) :
    extractEntries ((k, v) :: rest) pre d m =
      (match v with
       | Json.arr velems =>
         mkPre pre k ::
           (match velems with
            | Json.obj ms :: _ => extractFields (Json.obj ms) (mkPre pre k) (d + 1) m
            | Json.null :: _ => extractFields Json.null (mkPre pre k) (d + 1) m
            | _ => [])
       | Json.obj ms => extractFields (Json.obj ms) (mkPre pre k) (d + 1) m
       | _ => [mkPre pre k]) ++ extractEntries rest pre d m := by
  cases v with
  | null => rfl
  | bool b => rfl
  | num q => rfl
  | str s => rfl
  | obj ms => rfl
  | arr velems =>
    cases velems with
    | nil => rfl
    | cons f t => cases f <;> rfl

/-- On well-keyed, no-descent entry lists, every discovered path extends the
prefix with a first segment that is a key of the list, and the traversal of
those added segments from the object succeeds. -/
theorem extractEntries_resolve :
    ∀ (N : Nat) (es : List (String × Json)), sizeOf es ≤ N →
    ∀ (pre : String) (d m : Nat) (p : String),
      goodKeysEntries es = true → noDescentEntries es = true →
      p ∈ extractEntries es pre d m →
      ∃ k v rest, (k, v) ∈ es ∧ dotFree k = true ∧
        splitDot p = baseSegs pre ++ k :: rest ∧
        walk (Json.obj es) (k :: rest) ≠ none := by
  intro N
  induction N with
  | zero =>
    intro es hsz
    have : 0 < sizeOf es := by cases es <;> simp_arith
    omega
  | succ n ih =>
    intro es hsz pre d m p hg hnd hp
    cases es with
    | nil => simp [extractEntries] at hp
    | cons e rest =>
      obtain ⟨k, v⟩ := e
      obtain ⟨hdf, hnk, hgv, hgrest⟩ := goodKeysEntries_cons k v rest hg
      unfold noDescentEntries at hnd
      rw [Bool.and_eq_true] at hnd
      obtain ⟨hndv, hndrest⟩ := hnd
      have hszrest : sizeOf rest ≤ n := by
        have : sizeOf rest < sizeOf ((k, v) :: rest) := by simp_arith
        omega
      rw [extractEntries_cons_eq] at hp
      rcases List.mem_append.mp hp with hpl | hpr
      · -- the head entry's contribution
        cases v with
        | obj ms =>
          -- only the recursively discovered sub-paths
          simp only [] at hpl
          unfold extractFields at hpl
          by_cases hdm : d + 1 > m
          · rw [if_pos hdm] at hpl
            cases hpl
          · rw [if_neg hdm] at hpl
            have hgms : goodKeysEntries ms = true := hgv
            have hndms : noDescentEntries ms = true := hndv
            have hszms : sizeOf ms ≤ n := by
              have : sizeOf ms < sizeOf ((k, Json.obj ms) :: rest) := by simp_arith
              omega
            obtain ⟨k', v', rest', hmem', hdf', hsplit', hwalk'⟩ :=
              ih ms hszms (mkPre pre k) (d + 1) m p hgms hndms hpl
            refine ⟨k, Json.obj ms, k' :: rest', List.mem_cons_self _ _, hdf, ?_, ?_⟩
            · rw [hsplit', baseSegs_mkPre pre k hdf, List.append_assoc]
              rfl
            · have hlk : objLookup ((k, Json.obj ms) :: rest) k = some (Json.obj ms) := by
                unfold objLookup
                rw [if_pos rfl]
              rw [walk_obj_cons _ k (Json.obj ms) (k' :: rest') hlk]
              exact hwalk'
        | arr velems =>
          -- its own path; descent into the first element is excluded
          have hsub : p = mkPre pre k := by
            cases velems with
            | nil => simpa using hpl
            | cons f t =>
              cases f with
              | obj ms => simp [noDescent] at hndv
              | null =>
                simp only [] at hpl
                unfold extractFields at hpl
                rcases List.mem_cons.mp hpl with h | h
                · exact h
                · by_cases hdm : d + 1 > m
                  · rw [if_pos hdm] at h
                    cases h
                  · rw [if_neg hdm] at h
                    cases h
              | arr a2 => simpa using hpl
              | bool b => simpa using hpl
              | num q => simpa using hpl
              | str s => simpa using hpl
          subst hsub
          refine ⟨k, Json.arr velems, [], List.mem_cons_self _ _,
            hdf, splitDot_mkPre pre k hdf, ?_⟩
          have hlk : objLookup ((k, Json.arr velems) :: rest) k = some (Json.arr velems) := by
            unfold objLookup
            rw [if_pos rfl]
          rw [walk_obj_cons _ k (Json.arr velems) [] hlk]
          simp [walk]
        | null =>
          have hsub : p = mkPre pre k := by simpa using hpl
          subst hsub
          refine ⟨k, Json.null, [], List.mem_cons_self _ _,
            hdf, splitDot_mkPre pre k hdf, ?_⟩
          have hlk : objLookup ((k, Json.null) :: rest) k = some Json.null := by
            unfold objLookup
            rw [if_pos rfl]
          rw [walk_obj_cons _ k Json.null [] hlk]
          simp [walk]
        | bool b =>
          have hsub : p = mkPre pre k := by simpa using hpl
          subst hsub
          refine ⟨k, Json.bool b, [], List.mem_cons_self _ _,
            hdf, splitDot_mkPre pre k hdf, ?_⟩
          have hlk : objLookup ((k, Json.bool b) :: rest) k = some (Json.bool b) := by
            unfold objLookup
            rw [if_pos rfl]
          rw [walk_obj_cons _ k (Json.bool b) [] hlk]
          simp [walk]
        | num q =>
          have hsub : p = mkPre pre k := by simpa using hpl
          subst hsub
          refine ⟨k, Json.num q, [], List.mem_cons_self _ _,
            hdf, splitDot_mkPre pre k hdf, ?_⟩
          have hlk : objLookup ((k, Json.num q) :: rest) k = some (Json.num q) := by
            unfold objLookup
            rw [if_pos rfl]
          rw [walk_obj_cons _ k (Json.num q) [] hlk]
          simp [walk]
        | str s =>
          have hsub : p = mkPre pre k := by simpa using hpl
          subst hsub
          refine ⟨k, Json.str s, [], List.mem_cons_self _ _,
            hdf, splitDot_mkPre pre k hdf, ?_⟩
          have hlk : objLookup ((k, Json.str s) :: rest) k = some (Json.str s) := by
            unfold objLookup
            rw [if_pos rfl]
          rw [walk_obj_cons _ k (Json.str s) [] hlk]
          simp [walk]
      · -- a later entry's contribution, lifted over the head entry
        obtain ⟨k', v', rest', hmem', hdf', hsplit', hwalk'⟩ :=
          ih rest hszrest pre d m p hgrest hndrest hpr
        refine ⟨k', v', rest', List.mem_cons_of_mem _ hmem', hdf', hsplit', ?_⟩
        have hkne : k ≠ k' := by
          intro h
          subst h
          rw [hasKey_of_mem rest k v' hmem'] at hnk
          cases hnk
        cases hlk : objLookup rest k' with
        | none =>
          exfalso
          apply hwalk'
          unfold walk
          rw [List.foldl_cons]
          have hstep : reduceStep (some (Json.obj rest)) k' = none := by
            simp [reduceStep, truthy, jsIndex, hlk]
          rw [hstep]
          exact foldl_reduceStep_none rest'
        | some v0 =>
          have hfull : objLookup ((k, v) :: rest) k' = some v0 := by
            unfold objLookup
            rw [if_neg hkne]
            exact hlk
          rw [walk_obj_cons _ k' v0 rest' hfull]
          rw [walk_obj_cons rest k' v0 rest' hlk] at hwalk'
          exact hwalk'

/-- C1 (amended): the discover-then-resolve round-trip holds on every root
that is a mapping with non-empty dot-free keys and no duplicate keys
throughout, no top-level `data` key, and no sequence whose first element is
a mapping (so discovery never descends into array elements): every path
returned by discovery at the default depth bound resolves to something other
than NotFound. -/
theorem discover_resolve_roundtrip (root : Json) (hg : goodRoot root = true) :
    ∀ p ∈ extractFields root "" 0 10, getFieldValue root p ≠ none := by
  intro p hp
  cases root with
  | null => simp [goodRoot] at hg
  | bool b => simp [goodRoot] at hg
  | num q => simp [goodRoot] at hg
  | str s => simp [goodRoot] at hg
  | arr elems => simp [goodRoot] at hg
  | obj es =>
    unfold goodRoot at hg
    rw [Bool.and_eq_true, Bool.and_eq_true] at hg
    obtain ⟨⟨hge, hnde⟩, hdata⟩ := hg
    replace hp : p ∈ extractEntries es "" 0 10 := hp
    obtain ⟨k, v, rest, hmem, hdf, hsplit, hwalk⟩ :=
      extractEntries_resolve (sizeOf es) es le_rfl "" 0 10 p hge hnde hp
    have hsplit' : splitDot p = k :: rest := by
      rw [hsplit]
      rfl
    obtain ⟨hk1, hk2⟩ := dotFree_spec k hdf
    have hkd : k ≠ "data" := by
      have := List.all_eq_true.mp hdata (k, v) hmem
      simpa using this
    have hpne : p ≠ "" := ne_empty_of_splitDot p k rest hsplit' hk1
    have hstrip : stripDataEnvelope p = p :=
      stripDataEnvelope_of_head p k rest hsplit' hk1 hk2 hkd
    have hguard : ¬(truthy (Json.obj es) = false ∨ p = "") := by
      rintro (h | h)
      · simp [truthy] at h
      · exact hpne h
    simp only [getFieldValue, if_neg hguard, hstrip]
    cases hix : jsIndex (Json.obj es) p with
    | some v0 => simp
    | none =>
      simp only []
      rw [hsplit']
      exact hwalk

/-- C1 (witness): the amended round-trip at the concrete well-behaved root
`{"alpha": {"beta": 1}, "gamma": [1, 2]}`. -/
theorem discover_resolve_roundtrip_witness :
    goodRoot exGoodRoot = true ∧
    ∀ p ∈ extractFields exGoodRoot "" 0 10, getFieldValue exGoodRoot p ≠ none :=
  ⟨rfl, discover_resolve_roundtrip exGoodRoot rfl⟩

/-! ## The shape of discovered paths (descent into array elements allowed) -/

/-- On well-keyed entry lists, every discovered path extends the prefix with
a first segment that is a key of the list; when that key's value is a
mapping, the path extends strictly further (the key's own path is never
emitted for mapping values). -/
theorem extractEntries_shape :
    ∀ (N : Nat) (es : List (String × Json)), sizeOf es ≤ N →
    ∀ (pre : String) (d m : Nat) (p : String),
      goodKeysEntries es = true →
      p ∈ extractEntries es pre d m →
      ∃ k v rest, (k, v) ∈ es ∧ dotFree k = true ∧
        splitDot p = baseSegs pre ++ k :: rest ∧
        (∀ ms, v = Json.obj ms → rest ≠ []) := by
  intro N
  induction N with
  | zero =>
    intro es hsz
    have : 0 < sizeOf es := by cases es <;> simp_arith
    omega
  | succ n ih =>
    intro es hsz pre d m p hg hp
    cases es with
    | nil => simp [extractEntries] at hp
    | cons e rest =>
      obtain ⟨k, v⟩ := e
      obtain ⟨hdf, hnk, hgv, hgrest⟩ := goodKeysEntries_cons k v rest hg
      have hszrest : sizeOf rest ≤ n := by
        have : sizeOf rest < sizeOf ((k, v) :: rest) := by simp_arith
        omega
      rw [extractEntries_cons_eq] at hp
      rcases List.mem_append.mp hp with hpl | hpr
      · cases v with
        | obj ms =>
          simp only [] at hpl
          unfold extractFields at hpl
          by_cases hdm : d + 1 > m
          · rw [if_pos hdm] at hpl
            cases hpl
          · rw [if_neg hdm] at hpl
            have hszms : sizeOf ms ≤ n := by
              have : sizeOf ms < sizeOf ((k, Json.obj ms) :: rest) := by simp_arith
              omega
            obtain ⟨k', v', rest', _, _, hsplit', _⟩ :=
              ih ms hszms (mkPre pre k) (d + 1) m p hgv hpl
            refine ⟨k, Json.obj ms, k' :: rest', List.mem_cons_self _ _, hdf, ?_, ?_⟩
            · rw [hsplit', baseSegs_mkPre pre k hdf, List.append_assoc]
              rfl
            · intro ms' _ h
              cases h
        | arr velems =>
          rcases List.mem_cons.mp hpl with heq | hsub
          · refine ⟨k, Json.arr velems, [], List.mem_cons_self _ _, hdf, ?_, ?_⟩
            · rw [heq, splitDot_mkPre pre k hdf]
            · intro ms hms
              cases hms
          · cases velems with
            | nil => simp at hsub
            | cons f t =>
              cases f with
              | obj ms =>
                unfold extractFields at hsub
                by_cases hdm : d + 1 > m
                · rw [if_pos hdm] at hsub
                  cases hsub
                · rw [if_neg hdm] at hsub
                  have hgms : goodKeysEntries ms = true := hgv
                  have hszms : sizeOf ms ≤ n := by
                    have : sizeOf ms <
                        sizeOf ((k, Json.arr (Json.obj ms :: t)) :: rest) := by simp_arith
                    omega
                  obtain ⟨k', v', rest', _, _, hsplit', _⟩ :=
                    ih ms hszms (mkPre pre k) (d + 1) m p hgms hsub
                  refine ⟨k, Json.arr (Json.obj ms :: t), k' :: rest',
                    List.mem_cons_self _ _, hdf, ?_, ?_⟩
                  · rw [hsplit', baseSegs_mkPre pre k hdf, List.append_assoc]
                    rfl
                  · intro ms' hms'
                    cases hms'
              | null =>
                unfold extractFields at hsub
                by_cases hdm : d + 1 > m
                · rw [if_pos hdm] at hsub
                  cases hsub
                · rw [if_neg hdm] at hsub
                  cases hsub
              | bool b => simp at hsub
              | num q => simp at hsub
              | str s => simp at hsub
              | arr a2 => simp at hsub
        | null =>
          have heq : p = mkPre pre k := by simpa using hpl
          refine ⟨k, Json.null, [], List.mem_cons_self _ _, hdf, ?_, ?_⟩
          · rw [heq, splitDot_mkPre pre k hdf]
          · intro ms hms
            cases hms
        | bool b =>
          have heq : p = mkPre pre k := by simpa using hpl
          refine ⟨k, Json.bool b, [], List.mem_cons_self _ _, hdf, ?_, ?_⟩
          · rw [heq, splitDot_mkPre pre k hdf]
          · intro ms hms
            cases hms
        | num q =>
          have heq : p = mkPre pre k := by simpa using hpl
          refine ⟨k, Json.num q, [], List.mem_cons_self _ _, hdf, ?_, ?_⟩
          · rw [heq, splitDot_mkPre pre k hdf]
          · intro ms hms
            cases hms
        | str s =>
          have heq : p = mkPre pre k := by simpa using hpl
          refine ⟨k, Json.str s, [], List.mem_cons_self _ _, hdf, ?_, ?_⟩
          · rw [heq, splitDot_mkPre pre k hdf]
          · intro ms hms
            cases hms
      · obtain ⟨k', v', rest', hmem', hdf', hsplit', himp'⟩ :=
          ih rest hszrest pre d m p hgrest hpr
        exact ⟨k', v', rest', List.mem_cons_of_mem _ hmem', hdf', hsplit', himp'⟩

/-- On well-keyed entry lists, discovery emits no duplicate paths: distinct
keys give paths with distinct first segments, and a key's own path differs
from its strictly longer sub-paths. -/
theorem extractEntries_nodup :
    ∀ (N : Nat) (es : List (String × Json)), sizeOf es ≤ N →
    ∀ (pre : String) (d m : Nat),
      goodKeysEntries es = true → (extractEntries es pre d m).Nodup := by
  intro N
  induction N with
  | zero =>
    intro es hsz
    have : 0 < sizeOf es := by cases es <;> simp_arith
    omega
  | succ n ih =>
    intro es hsz pre d m hg
    cases es with
    | nil =>
      show (List.nil : List String).Nodup
      exact List.nodup_nil
    | cons e rest =>
      obtain ⟨k, v⟩ := e
      obtain ⟨hdf, hnk, hgv, hgrest⟩ := goodKeysEntries_cons k v rest hg
      have hszrest : sizeOf rest ≤ n := by
        have : sizeOf rest < sizeOf ((k, v) :: rest) := by simp_arith
        omega
      rw [extractEntries_cons_eq, List.nodup_append]
      refine ⟨?_, ih rest hszrest pre d m hgrest, ?_⟩
      · -- the head entry's contribution has no duplicates
        cases v with
        | obj ms =>
          show (extractFields (Json.obj ms) (mkPre pre k) (d + 1) m).Nodup
          unfold extractFields
          by_cases hdm : d + 1 > m
          · rw [if_pos hdm]
            exact List.nodup_nil
          · rw [if_neg hdm]
            have hszms : sizeOf ms ≤ n := by
              have : sizeOf ms < sizeOf ((k, Json.obj ms) :: rest) := by simp_arith
              omega
            exact ih ms hszms (mkPre pre k) (d + 1) m hgv
        | arr velems =>
          cases velems with
          | nil => simp
          | cons f t =>
            cases f with
            | obj ms =>
              show (mkPre pre k :: extractFields (Json.obj ms) (mkPre pre k) (d + 1) m).Nodup
              rw [List.nodup_cons]
              constructor
              · intro hmem
                unfold extractFields at hmem
                by_cases hdm : d + 1 > m
                · rw [if_pos hdm] at hmem
                  cases hmem
                · rw [if_neg hdm] at hmem
                  obtain ⟨k', v', rest', _, _, hsplit', _⟩ :=
                    extractEntries_shape (sizeOf ms) ms le_rfl (mkPre pre k) (d + 1) m _
                      hgv hmem
                  have hb : baseSegs (mkPre pre k) = splitDot (mkPre pre k) := by
                    unfold baseSegs
                    rw [if_neg (mkPre_ne_empty pre k hdf)]
                  rw [hb] at hsplit'
                  have hlen := congrArg List.length hsplit'
                  simp at hlen
              · unfold extractFields
                by_cases hdm : d + 1 > m
                · rw [if_pos hdm]
                  exact List.nodup_nil
                · rw [if_neg hdm]
                  have hszms : sizeOf ms ≤ n := by
                    have : sizeOf ms <
                        sizeOf ((k, Json.arr (Json.obj ms :: t)) :: rest) := by simp_arith
                    omega
                  exact ih ms hszms (mkPre pre k) (d + 1) m hgv
            | null =>
              show (mkPre pre k :: extractFields Json.null (mkPre pre k) (d + 1) m).Nodup
              unfold extractFields
              by_cases hdm : d + 1 > m
              · rw [if_pos hdm]
                simp
              · rw [if_neg hdm]
                simp
            | bool b => simp
            | num q => simp
            | str s => simp
            | arr a2 => simp
        | null => simp
        | bool b => simp
        | num q => simp
        | str s => simp
      · -- the head entry's contribution is disjoint from the tail's paths
        intro p hpl hpr
        have hone : p ∈ extractEntries [(k, v)] pre d m := by
          rw [extractEntries_cons_eq]
          exact List.mem_append.mpr (Or.inl hpl)
        have hgone : goodKeysEntries [(k, v)] = true := by
          unfold goodKeysEntries hasKey
          simp [hdf, hgv]
          rfl
        obtain ⟨k1, v1, r1, hmem1, _, hsplit1, _⟩ :=
          extractEntries_shape (sizeOf [(k, v)]) [(k, v)] le_rfl pre d m p hgone hone
        obtain ⟨k2, v2, r2, hmem2, _, hsplit2, _⟩ :=
          extractEntries_shape (sizeOf rest) rest le_rfl pre d m p hgrest hpr
        have hk1 : k1 = k := by
          rcases List.mem_cons.mp hmem1 with h | h
          · cases h
            rfl
          · cases h
        rw [hsplit1] at hsplit2
        have hcons := List.append_cancel_left hsplit2
        have hk12 : k1 = k2 := by
          cases hcons
          rfl
        have : hasKey rest k = true := by
          rw [← hk1, hk12]
          exact hasKey_of_mem rest k2 v2 hmem2
        rw [this] at hnk
        cases hnk

/-- C8 (amended): discovery output is in first-seen order **without**
de-duplication, and duplicates can only come from path-string collisions:
on any document whose keys are everywhere non-empty, dot-free and (as in any
real parsed JSON object) pairwise distinct, no field path occurs twice in
the output. -/
theorem discover_nodup_of_goodKeys (j : Json) (hg : goodKeys j = true)
    (pre : String) (d m : Nat) : (extractFields j pre d m).Nodup := by
  cases j with
  | obj es =>
    unfold extractFields
    by_cases hdm : d > m
    · rw [if_pos hdm]
      exact List.nodup_nil
    · rw [if_neg hdm]
      exact extractEntries_nodup (sizeOf es) es le_rfl pre d m hg
  | arr elems =>
    unfold extractFields
    by_cases hdm : d > m
    · rw [if_pos hdm]
      exact List.nodup_nil
    · rw [if_neg hdm]
      cases elems with
      | nil => simp
      | cons f t =>
        cases f with
        | obj ms =>
          show (extractFields (Json.obj ms) pre (d + 1) m).Nodup
          unfold extractFields
          by_cases hdm2 : d + 1 > m
          · rw [if_pos hdm2]
            exact List.nodup_nil
          · rw [if_neg hdm2]
            exact extractEntries_nodup (sizeOf ms) ms le_rfl pre (d + 1) m hg
        | null => simp
        | bool b => simp
        | num q => simp
        | str s => simp
        | arr a2 => simp
  | null =>
    unfold extractFields
    by_cases hdm : d > m
    · rw [if_pos hdm]
      exact List.nodup_nil
    · rw [if_neg hdm]
      exact List.nodup_nil
  | bool b =>
    unfold extractFields
    by_cases hdm : d > m
    · rw [if_pos hdm]
      exact List.nodup_nil
    · rw [if_neg hdm]
      exact List.nodup_nil
  | num q =>
    unfold extractFields
    by_cases hdm : d > m
    · rw [if_pos hdm]
      exact List.nodup_nil
    · rw [if_neg hdm]
      exact List.nodup_nil
  | str s =>
    unfold extractFields
    by_cases hdm : d > m
    · rw [if_pos hdm]
      exact List.nodup_nil
    · rw [if_neg hdm]
      exact List.nodup_nil

/-- C8 (witness): no duplicates at the default bounds on the concrete
well-keyed root `{"alpha": {"beta": 1}, "gamma": [1, 2]}`. -/
theorem discover_nodup_of_goodKeys_witness :
    goodKeys exGoodRoot = true ∧ (extractFields exGoodRoot "" 0 10).Nodup :=
  ⟨rfl, discover_nodup_of_goodKeys exGoodRoot rfl "" 0 10⟩

/-- A sequence-valued key always contributes its own path. -/
theorem mkPre_mem_of_arr :
    ∀ (es : List (String × Json)) (pre : String) (d m : Nat) (k : String) (vs : List Json),
      (k, Json.arr vs) ∈ es → mkPre pre k ∈ extractEntries es pre d m := by
  intro es
  induction es with
  | nil =>
    intro pre d m k vs hmem
    cases hmem
  | cons e rest ih =>
    intro pre d m k vs hmem
    obtain ⟨a, b⟩ := e
    rw [extractEntries_cons_eq]
    rcases List.mem_cons.mp hmem with heq | hmem'
    · cases heq
      exact List.mem_append.mpr (Or.inl (List.mem_cons_self _ _))
    · exact List.mem_append.mpr (Or.inr (ih pre d m k vs hmem'))

/-- A primitive-valued key (neither mapping nor sequence) always contributes
its own path. -/
theorem mkPre_mem_of_prim :
    ∀ (es : List (String × Json)) (pre : String) (d m : Nat) (k : String) (v : Json),
      (k, v) ∈ es → (∀ ms, v ≠ Json.obj ms) → (∀ vs, v ≠ Json.arr vs) →
      mkPre pre k ∈ extractEntries es pre d m := by
  intro es
  induction es with
  | nil =>
    intro pre d m k v hmem
    cases hmem
  | cons e rest ih =>
    intro pre d m k v hmem hno hna
    obtain ⟨a, b⟩ := e
    rw [extractEntries_cons_eq]
    rcases List.mem_cons.mp hmem with heq | hmem'
    · cases heq
      cases v with
      | obj ms => exact absurd rfl (hno ms)
      | arr vs => exact absurd rfl (hna vs)
      | null => exact List.mem_append.mpr (Or.inl (List.mem_cons_self _ _))
      | bool c => exact List.mem_append.mpr (Or.inl (List.mem_cons_self _ _))
      | num q => exact List.mem_append.mpr (Or.inl (List.mem_cons_self _ _))
      | str s => exact List.mem_append.mpr (Or.inl (List.mem_cons_self _ _))
    · exact List.mem_append.mpr (Or.inr (ih pre d m k v hmem' hno hna))

/-- C2 (amended): inside a well-keyed mapping, a key whose value is a
sequence contributes the key's own path, a key whose value is a primitive
contributes the key's own path, but a key whose value is a **mapping**
contributes only the recursively discovered sub-paths — its own path is
absent; in particular discovery of `{"a": {"b": 1}}` returns exactly
`["a.b"]`. -/
theorem mapping_value_contributions (es : List (String × Json)) (pre : String)
    (d m : Nat) (hg : goodKeysEntries es = true) :
    (∀ k sub, (k, Json.obj sub) ∈ es → mkPre pre k ∉ extractEntries es pre d m) ∧
    (∀ k vs, (k, Json.arr vs) ∈ es → mkPre pre k ∈ extractEntries es pre d m) ∧
    (∀ k v, (k, v) ∈ es → (∀ ms, v ≠ Json.obj ms) → (∀ vs, v ≠ Json.arr vs) →
      mkPre pre k ∈ extractEntries es pre d m) ∧
    extractFields (Json.obj [("a", Json.obj [("b", Json.num 1)])]) "" 0 10 = ["a.b"] := by
  refine ⟨?_, fun k vs h => mkPre_mem_of_arr es pre d m k vs h,
    fun k v h hno hna => mkPre_mem_of_prim es pre d m k v h hno hna, rfl⟩
  intro k sub hmem hin
  obtain ⟨hdf, _⟩ := goodKeysEntries_mem es hg k (Json.obj sub) hmem
  obtain ⟨k1, v1, r1, hmem1, _, hsplit1, himp1⟩ :=
    extractEntries_shape (sizeOf es) es le_rfl pre d m (mkPre pre k) hg hin
  rw [splitDot_mkPre pre k hdf] at hsplit1
  have hcons := List.append_cancel_left hsplit1
  cases hcons
  have hv1 : v1 = Json.obj sub := mem_value_unique es hg k v1 (Json.obj sub) hmem1 hmem
  exact himp1 sub hv1 rfl

/-- C2 (witness): inside `{"alpha": {"beta": 1}, "gamma": [1, 2]}` the
mapping-valued key `alpha` does not contribute its own path, while the
sequence-valued key `gamma` does. -/
theorem mapping_value_contributions_witness :
    goodKeysEntries [("alpha", Json.obj [("beta", Json.num 1)]),
      ("gamma", Json.arr [Json.num 1, Json.num 2])] = true ∧
    mkPre "" "alpha" ∉ extractEntries [("alpha", Json.obj [("beta", Json.num 1)]),
      ("gamma", Json.arr [Json.num 1, Json.num 2])] "" 0 10 ∧
    mkPre "" "gamma" ∈ extractEntries [("alpha", Json.obj [("beta", Json.num 1)]),
      ("gamma", Json.arr [Json.num 1, Json.num 2])] "" 0 10 := by
  refine ⟨rfl, ?_, ?_⟩
  · exact (mapping_value_contributions [("alpha", Json.obj [("beta", Json.num 1)]),
      ("gamma", Json.arr [Json.num 1, Json.num 2])] "" 0 10 rfl).1 "alpha"
      [("beta", Json.num 1)] (List.mem_cons_self _ _)
  · exact (mapping_value_contributions [("alpha", Json.obj [("beta", Json.num 1)]),
      ("gamma", Json.arr [Json.num 1, Json.num 2])] "" 0 10 rfl).2.1 "gamma"
      [Json.num 1, Json.num 2] (by simp)

end Theorems

end FinBoard
